import Mathlib

/-!
Shallow embedding of the GraphTabs service worker's thumbnail cache
subsystem (source file: the background service worker script).

The embedding translates, directly from the JavaScript source:
  - the thumbnail cache store (`thumbnailState.entries`, `totalBytes`,
    mirrored `chrome.storage.session` records) as `CacheState`;
  - `saveThumbnail`, `removeThumbnail`, `evictThumbnailsIfNeeded`,
    `hydrateThumbnailCache`, `estimateDataUrlBytes`,
    `getThumbnailStorageKey`, the `thumb:get` message handler;
  - the capture gate (`scheduleThumbnailCapture`, debounce timers and the
    in-flight set) and the capturer (`captureThumbnail`,
    `isCaptureBlockedError`).

JavaScript `Map`s are modelled as insertion-ordered association lists with
unique keys (`mapGet` / `mapSet` / `mapDelete`); `Array.prototype.sort`
(stable, by a numeric comparator) is modelled by a stable insertion sort,
which agrees with every stable sort for a total preorder comparator.
JavaScript numbers are modelled as `Int` (timestamps, byte counts) and
`Nat` (tab identifiers, lengths); all arithmetic in the source stays within
safe-integer range so no overflow modelling is needed.
-/

namespace GraphTabs

/-- JS `Map.prototype.get`: the value stored at key `k`, if any. -/
def mapGet {α : Type} (m : List (Nat × α)) (k : Nat) : Option α :=
  (m.find? (fun p => p.1 == k)).map (fun p => p.2)

/-- JS `Map.prototype.set`: replace in place if the key is present
(preserving insertion order), otherwise append. -/
def mapSet {α : Type} (m : List (Nat × α)) (k : Nat) (v : α) : List (Nat × α) :=
  if m.any (fun p => p.1 == k) then
    m.map (fun p => if p.1 == k then (k, v) else p)
  else
    m ++ [(k, v)]

/-- JS `Map.prototype.delete`: remove the entry with key `k`. -/
def mapDelete {α : Type} (m : List (Nat × α)) (k : Nat) : List (Nat × α) :=
  m.filter (fun p => p.1 != k)

/-- Stable insertion of `x` into `l`: `x` goes after every element `y`
with `le y x` (ties keep the earlier element first, as JS stable sort does). -/
def stableInsert {α : Type} (le : α → α → Bool) (x : α) : List α → List α
  | [] => [x]
  | y :: ys => if le y x then y :: stableInsert le x ys else x :: y :: ys

/-- Stable sort by a boolean total preorder; models JS
`Array.prototype.sort` with a numeric comparator (spec-mandated stable). -/
def stableSort {α : Type} (le : α → α → Bool) (l : List α) : List α :=
  l.foldl (fun acc x => stableInsert le x acc) []

/-- `estimateDataUrlBytes(dataUrl)` from the source: locate the first
comma; if none, return the string length; otherwise return
`Math.ceil(base64.length * 3 / 4)` for the substring after the comma. -/
def estimateDataUrlBytes (dataUrl : String) : Nat :=
  match dataUrl.toList.findIdx? (fun c => c == ',') with
  | none => dataUrl.length
  | some i => ((dataUrl.toList.drop (i + 1)).length * 3 + 3) / 4

/-- In-memory `ThumbEntry` (`{ dataUrl, blocked, lastUpdated, bytes }`).
`lastUpdated` is `Option Int` because the JS field can be `undefined`
(the eviction comparator guards it with `?? 0`). -/
structure ThumbEntry where
  dataUrl : Option String
  blocked : Bool
  lastUpdated : Option Int
  bytes : Int
deriving DecidableEq, Repr

/-- A durable record in `chrome.storage.session`, as read back by
hydration: every field may be missing or of the wrong shape, so each is
optional (`none` models `undefined` / non-string / non-number). -/
structure RawRecord where
  dataUrl : Option String
  blocked : Bool
  lastUpdated : Option Int
  bytes : Option Int
deriving DecidableEq, Repr

/-- The cache store: `thumbnailState.entries`, `thumbnailState.totalBytes`
and the mirrored session-storage records.  Storage keys are
`"thumb_" ++ toString tabId`; since `Number` parsing of that suffix is the
identity on such keys, storage is keyed directly by tab id here. -/
structure CacheState where
  entries : List (Nat × ThumbEntry)
  totalBytes : Int
  storage : List (Nat × RawRecord)
deriving DecidableEq, Repr

def emptyCacheState : CacheState := ⟨[], 0, []⟩

/-- `THUMB_MAX_ENTRIES = 120`. -/
def THUMB_MAX_ENTRIES : Nat := 120

/-- `THUMB_MAX_TOTAL_BYTES = 8 * 1024 * 1024`. -/
def THUMB_MAX_TOTAL_BYTES : Int := 8 * 1024 * 1024

/-- The eviction comparator's key: `entry.lastUpdated ?? 0`. -/
def jsSortKey (e : ThumbEntry) : Int := e.lastUpdated.getD 0

/-- `(a, b) => (a[1].lastUpdated ?? 0) - (b[1].lastUpdated ?? 0)` as a
boolean total preorder. -/
def evictLE (a b : Nat × ThumbEntry) : Bool := decide (jsSortKey a.2 ≤ jsSortKey b.2)

/-- The bound check at the top of `evictThumbnailsIfNeeded` and of each
loop iteration: `entries.size <= THUMB_MAX_ENTRIES && totalBytes <= THUMB_MAX_TOTAL_BYTES`. -/
def withinBounds (s : CacheState) : Bool :=
  decide (s.entries.length ≤ THUMB_MAX_ENTRIES) && decide (s.totalBytes ≤ THUMB_MAX_TOTAL_BYTES)

/-- `removeThumbnail(tabId)`: if present, delete the entry, subtract its
bytes from the running total, and delete the durable record. -/
def removeThumbnail (s : CacheState) (tabId : Nat) : CacheState :=
  match mapGet s.entries tabId with
  | none => s
  | some e =>
    { entries := mapDelete s.entries tabId
      totalBytes := s.totalBytes - e.bytes
      storage := mapDelete s.storage tabId }

/-- The `for (const [tabId] of entries)` loop body of
`evictThumbnailsIfNeeded`: re-check both bounds before each removal. -/
def evictLoop : CacheState → List (Nat × ThumbEntry) → CacheState
  | s, [] => s
  | s, (tabId, _) :: rest =>
    if withinBounds s then s else evictLoop (removeThumbnail s tabId) rest

/-- The eviction candidate list: all entries, stably sorted by ascending
`lastUpdated ?? 0`. -/
def evictCandidates (s : CacheState) : List (Nat × ThumbEntry) :=
  stableSort evictLE s.entries

/-- `evictThumbnailsIfNeeded()`. -/
def evictThumbnailsIfNeeded (s : CacheState) : CacheState :=
  if withinBounds s then s else evictLoop s (evictCandidates s)

/-- `const bytes = dataUrl ? estimateDataUrlBytes(dataUrl) : 0` — the
empty string is falsy in JS, hence the explicit check. -/
def putBytes : Option String → Int
  | some d => if d == "" then 0 else (estimateDataUrlBytes d : Int)
  | none => 0

/-- The body of `saveThumbnail` before its final eviction pass: subtract a
replaced entry's bytes, compute `bytes`, store the entry in memory and in
session storage.  The durable record is the entry object itself, so all
its fields are present. -/
def savePre (s : CacheState) (tabId : Nat) (dataUrl : Option String)
    (blocked : Bool) (lastUpdated : Option Int) : CacheState :=
  let afterSub : Int :=
    match mapGet s.entries tabId with
    | some e => s.totalBytes - e.bytes
    | none => s.totalBytes
  { entries := mapSet s.entries tabId ⟨dataUrl, blocked, lastUpdated, putBytes dataUrl⟩
    totalBytes := afterSub + putBytes dataUrl
    storage := mapSet s.storage tabId ⟨dataUrl, blocked, lastUpdated, some (putBytes dataUrl)⟩ }

/-- `saveThumbnail(tabId, { dataUrl, blocked, lastUpdated })`: update the
in-memory index and the durable mirror, then run eviction. -/
def saveThumbnail (s : CacheState) (tabId : Nat) (dataUrl : Option String)
    (blocked : Bool) (lastUpdated : Option Int) : CacheState :=
  evictThumbnailsIfNeeded (savePre s tabId dataUrl blocked lastUpdated)

/-- The per-record normalisation inside `hydrateThumbnailCache`:
`dataUrl` must be a string, `blocked` is coerced to boolean,
`lastUpdated` falls back to `Date.now()` (the `now` argument), and
`bytes` is used only when truthy (non-zero) and finite, otherwise
re-estimated from `dataUrl` (0 when absent). -/
def parseRecord (now : Int) (v : RawRecord) : ThumbEntry :=
  let fallback : Int :=
    match v.dataUrl with
    | some d => (estimateDataUrlBytes d : Int)
    | none => 0
  { dataUrl := v.dataUrl
    blocked := v.blocked
    lastUpdated := some (v.lastUpdated.getD now)
    bytes :=
      match v.bytes with
      | some b => if b == 0 then fallback else b
      | none => fallback }

/-- One iteration of the `hydrateThumbnailCache` loop: normalise the
record, store it in the in-memory index, and add its bytes to the running
total (the durable storage is only read, never written, by hydration). -/
def hydrateStep (now : Int) (acc : CacheState) (kv : Nat × RawRecord) : CacheState :=
  let e := parseRecord now kv.2
  { acc with
    entries := mapSet acc.entries kv.1 e
    totalBytes := acc.totalBytes + e.bytes }

/-- The record-loading loop of `hydrateThumbnailCache`: fold every durable
record (in storage order) into the in-memory index.  Keys without the
`thumb_` storage key shape are skipped by the source; the model's storage
holds only such keys. -/
def hydrateFold (now : Int) (s : CacheState) : CacheState :=
  s.storage.foldl (hydrateStep now) s

/-- `hydrateThumbnailCache()`: load every durable record, then run one
eviction pass. -/
def hydrateThumbnailCache (now : Int) (s : CacheState) : CacheState :=
  evictThumbnailsIfNeeded (hydrateFold now s)

/-- `getThumbnailStorageKey(tabId)`. -/
def getThumbnailStorageKey (tabId : Nat) : String :=
  "thumb_" ++ toString tabId

/-- The response object of the `thumb:get` message handler. -/
structure ThumbGetResponse where
  found : Bool
  blocked : Bool
  storageKey : Option String
  lastUpdated : Option Int
deriving DecidableEq, Repr

/-- The `thumb:get` branch of the runtime message listener:
`found = Boolean(entry) && !entry.blocked`, `blocked = Boolean(entry?.blocked)`,
`storageKey = entry ? getThumbnailStorageKey(tabId) : null`,
`lastUpdated = entry?.lastUpdated ?? null`. -/
def thumbGetResponse (s : CacheState) (tabId : Nat) : ThumbGetResponse :=
  match mapGet s.entries tabId with
  | none => ⟨false, false, none, none⟩
  | some e => ⟨!e.blocked, e.blocked, some (getThumbnailStorageKey tabId), e.lastUpdated⟩

/-- A Cache Store operation as exposed by §4.3 of the design:
`put(tabId, {imageData|null, blocked, timestamp})` (= `saveThumbnail`) or
`remove(tabId)` (= `removeThumbnail`). -/
inductive StoreOp
  | put (tabId : Nat) (dataUrl : Option String) (blocked : Bool) (lastUpdated : Option Int)
  | rem (tabId : Nat)
deriving DecidableEq, Repr

def applyStoreOp (s : CacheState) : StoreOp → CacheState
  | .put tabId dataUrl blocked lastUpdated => saveThumbnail s tabId dataUrl blocked lastUpdated
  | .rem tabId => removeThumbnail s tabId

def applyStoreOps (ops : List StoreOp) : CacheState :=
  ops.foldl applyStoreOp emptyCacheState

/-- Keys of an association list, in order. -/
def keys {α : Type} (m : List (Nat × α)) : List Nat := m.map (fun p => p.1)

/-- Sum of the `bytes` fields of an entry list. -/
def entriesBytes (m : List (Nat × ThumbEntry)) : Int := (m.map (fun p => p.2.bytes)).sum

/-- Representation invariant of the store: the running total equals the
sum of entry byte sizes, keys are unique (JS `Map` keys are), and byte
sizes are nonnegative. -/
def consistent (s : CacheState) : Prop :=
  s.totalBytes = entriesBytes s.entries ∧ (keys s.entries).Nodup ∧ ∀ p ∈ s.entries, 0 ≤ p.2.bytes

theorem mem_keys {α : Type} {m : List (Nat × α)} {k : Nat} :
    k ∈ keys m ↔ ∃ p ∈ m, p.1 = k := by
  constructor
  · intro h
    obtain ⟨p, hp, hk⟩ := List.mem_map.mp h
    exact ⟨p, hp, hk⟩
  · rintro ⟨p, hp, hk⟩
    exact List.mem_map.mpr ⟨p, hp, hk⟩

theorem mapSet_of_mem {α : Type} {m : List (Nat × α)} {k : Nat} (v : α)
    (h : k ∈ keys m) :
    mapSet m k v = m.map (fun p => if p.1 == k then (k, v) else p) := by
  obtain ⟨p, hp, hk⟩ := mem_keys.mp h
  simp only [mapSet, if_pos]
  rw [if_pos]
  rw [List.any_eq_true]
  exact ⟨p, hp, by simp [hk]⟩

theorem mapSet_of_not_mem {α : Type} {m : List (Nat × α)} {k : Nat} (v : α)
    (h : k ∉ keys m) : mapSet m k v = m ++ [(k, v)] := by
  simp only [mapSet]
  rw [if_neg]
  intro hany
  obtain ⟨p, hp, hk⟩ := List.any_eq_true.mp hany
  exact h (mem_keys.mpr ⟨p, hp, by simpa using hk⟩)

theorem map_replace_of_not_mem {α : Type} {m : List (Nat × α)} {k : Nat} (v : α)
    (h : k ∉ keys m) : m.map (fun p => if p.1 == k then (k, v) else p) = m := by
  induction m with
  | nil => rfl
  | cons q rest ih =>
    have hq : ¬ q.1 = k := fun hk => h (mem_keys.mpr ⟨q, List.mem_cons_self _ _, hk⟩)
    have hrest : k ∉ keys rest := fun hk => h (by
      obtain ⟨p, hp, hpk⟩ := mem_keys.mp hk
      exact mem_keys.mpr ⟨p, List.mem_cons_of_mem _ hp, hpk⟩)
    simp only [List.map_cons, ih hrest]
    simp [hq]

theorem keys_map_replace {α : Type} (m : List (Nat × α)) (k : Nat) (v : α) :
    keys (m.map (fun p => if p.1 == k then (k, v) else p)) = keys m := by
  induction m with
  | nil => rfl
  | cons q rest ih =>
    by_cases hq : q.1 = k
    · simp [keys, hq] at ih ⊢; exact ih
    · simp [keys, hq] at ih ⊢; exact ih

theorem mapGet_mem {α : Type} {m : List (Nat × α)} {k : Nat} {e : α}
    (h : mapGet m k = some e) : (k, e) ∈ m := by
  simp only [mapGet] at h
  obtain ⟨p, hfind, hsnd⟩ := Option.map_eq_some'.mp h
  have hmem := List.mem_of_find?_eq_some hfind
  have hkey : p.1 = k := by simpa using List.find?_some hfind
  have : p = (k, e) := by
    cases p; simp_all
  rw [← this]; exact hmem

theorem mapGet_eq_none_of_not_mem {α : Type} {m : List (Nat × α)} {k : Nat}
    (h : k ∉ keys m) : mapGet m k = none := by
  simp only [mapGet, Option.map_eq_none']
  rw [List.find?_eq_none]
  intro p hp
  simp only [beq_iff_eq]
  exact fun hk => h (mem_keys.mpr ⟨p, hp, hk⟩)

theorem mem_keys_of_mapGet {α : Type} {m : List (Nat × α)} {k : Nat} {e : α}
    (h : mapGet m k = some e) : k ∈ keys m :=
  mem_keys.mpr ⟨(k, e), mapGet_mem h, rfl⟩

theorem not_mem_keys_of_mapGet_none {α : Type} {m : List (Nat × α)} {k : Nat}
    (h : mapGet m k = none) : k ∉ keys m := by
  intro hk
  obtain ⟨p, hp, hpk⟩ := mem_keys.mp hk
  have : (m.find? (fun p => p.1 == k)).isSome := by
    rw [List.find?_isSome]
    exact ⟨p, hp, by simp [hpk]⟩
  simp only [mapGet, Option.map_eq_none'] at h
  rw [h] at this
  exact Bool.noConfusion this

theorem mem_mapSet {α : Type} {m : List (Nat × α)} {k : Nat} {v : α} {p : Nat × α}
    (h : p ∈ mapSet m k v) : p = (k, v) ∨ p ∈ m := by
  by_cases hk : k ∈ keys m
  · rw [mapSet_of_mem v hk] at h
    obtain ⟨q, hq, hfq⟩ := List.mem_map.mp h
    by_cases hq1 : q.1 = k
    · left
      rw [if_pos (by simp [hq1])] at hfq
      exact hfq.symm
    · right
      rw [if_neg (by simp [hq1])] at hfq
      exact hfq ▸ hq
  · rw [mapSet_of_not_mem v hk] at h
    rcases List.mem_append.mp h with hm | hone
    · right; exact hm
    · left; simpa using hone

theorem mem_mapDelete {α : Type} {m : List (Nat × α)} {k : Nat} {p : Nat × α}
    (h : p ∈ mapDelete m k) : p ∈ m :=
  List.mem_of_mem_filter h

theorem keys_mapDelete_nodup {α : Type} {m : List (Nat × α)} {k : Nat}
    (h : (keys m).Nodup) : (keys (mapDelete m k)).Nodup :=
  h.sublist ((List.filter_sublist m).map _)

theorem length_mapDelete_le {α : Type} (m : List (Nat × α)) (k : Nat) :
    (mapDelete m k).length ≤ m.length :=
  List.length_filter_le _ m

theorem keys_mapSet_nodup {α : Type} {m : List (Nat × α)} {k : Nat} (v : α)
    (h : (keys m).Nodup) : (keys (mapSet m k v)).Nodup := by
  by_cases hk : k ∈ keys m
  · rw [mapSet_of_mem v hk, keys_map_replace]; exact h
  · rw [mapSet_of_not_mem v hk]
    simp only [keys, List.map_append] at *
    simp [List.nodup_append, h]
    intro a ha
    exact hk (List.mem_map.mpr ⟨(k, a), ha, rfl⟩)

theorem not_mem_keys_tail {α : Type} {q : Nat × α} {rest : List (Nat × α)} {k : Nat}
    (h : (keys (q :: rest)).Nodup) (hq : q.1 = k) : k ∉ keys rest := by
  simp only [keys, List.map_cons, List.nodup_cons] at h
  rw [← hq]
  exact fun hk => h.1 hk

theorem eq_of_mem_nodup_head {α : Type} {q : Nat × α} {rest : List (Nat × α)} {k : Nat} {e : α}
    (h : (keys (q :: rest)).Nodup) (hq : q.1 = k) (hmem : (k, e) ∈ q :: rest) :
    q = (k, e) := by
  rcases List.mem_cons.mp hmem with heq | htail
  · exact heq.symm
  · exact absurd (mem_keys.mpr ⟨(k, e), htail, rfl⟩) (not_mem_keys_tail h hq)

theorem entriesBytes_map_replace {m : List (Nat × ThumbEntry)} {k : Nat} {e : ThumbEntry}
    (v : ThumbEntry) (hnd : (keys m).Nodup) (hmem : (k, e) ∈ m) :
    entriesBytes (m.map (fun p => if p.1 == k then (k, v) else p)) =
      entriesBytes m - e.bytes + v.bytes := by
  induction m with
  | nil => cases hmem
  | cons q rest ih =>
    by_cases hq : q.1 = k
    · have hqe : q = (k, e) := eq_of_mem_nodup_head hnd hq hmem
      have hrest : k ∉ keys rest := not_mem_keys_tail hnd hq
      simp only [List.map_cons, if_pos (by simp [hq] : (q.1 == k) = true)]
      rw [map_replace_of_not_mem v hrest]
      simp [entriesBytes, hqe]
      ring
    · have hmem' : (k, e) ∈ rest := by
        rcases List.mem_cons.mp hmem with heq | htail
        · exact absurd (by rw [← heq]) hq
        · exact htail
      have hnd' : (keys rest).Nodup := (by
        simp only [keys, List.map_cons, List.nodup_cons] at hnd
        exact hnd.2)
      simp only [List.map_cons, if_neg (by simp [hq] : ¬ (q.1 == k) = true)]
      simp only [entriesBytes, List.map_cons, List.sum_cons] at *
      rw [ih hnd' hmem']
      ring

theorem entriesBytes_append_single (m : List (Nat × ThumbEntry)) (k : Nat) (v : ThumbEntry) :
    entriesBytes (m ++ [(k, v)]) = entriesBytes m + v.bytes := by
  simp [entriesBytes]

theorem entriesBytes_mapDelete {m : List (Nat × ThumbEntry)} {k : Nat} {e : ThumbEntry}
    (hnd : (keys m).Nodup) (hmem : (k, e) ∈ m) :
    entriesBytes (mapDelete m k) = entriesBytes m - e.bytes := by
  induction m with
  | nil => cases hmem
  | cons q rest ih =>
    by_cases hq : q.1 = k
    · have hqe : q = (k, e) := eq_of_mem_nodup_head hnd hq hmem
      have hrest : k ∉ keys rest := not_mem_keys_tail hnd hq
      have hfilter : mapDelete rest k = rest := by
        simp only [mapDelete]
        rw [List.filter_eq_self]
        intro p hp
        simp only [bne_iff_ne, ne_eq]
        exact fun hpk => hrest (mem_keys.mpr ⟨p, hp, hpk⟩)
      simp only [mapDelete, List.filter_cons]
      rw [if_neg (by simp [hq])]
      show entriesBytes (List.filter _ rest) = _
      have : List.filter (fun p => p.1 != k) rest = rest := hfilter
      rw [this, hqe]
      simp [entriesBytes]
    · have hmem' : (k, e) ∈ rest := by
        rcases List.mem_cons.mp hmem with heq | htail
        · exact absurd (by rw [← heq]) hq
        · exact htail
      have hnd' : (keys rest).Nodup := (by
        simp only [keys, List.map_cons, List.nodup_cons] at hnd
        exact hnd.2)
      simp only [mapDelete, List.filter_cons]
      rw [if_pos (by simp [hq])]
      show entriesBytes (q :: List.filter _ rest) = _
      have hrec := ih hnd' hmem'
      simp only [entriesBytes, mapDelete, List.map_cons, List.sum_cons] at hrec ⊢
      rw [hrec]
      ring

theorem mapDelete_of_not_mem {α : Type} {m : List (Nat × α)} {k : Nat}
    (h : k ∉ keys m) : mapDelete m k = m := by
  simp only [mapDelete]
  rw [List.filter_eq_self]
  intro p hp
  simp only [bne_iff_ne, ne_eq]
  exact fun hpk => h (mem_keys.mpr ⟨p, hp, hpk⟩)

theorem mapGet_mapSet_self {α : Type} {m : List (Nat × α)} (k : Nat) (v : α) :
    mapGet (mapSet m k v) k = some v := by
  by_cases hk : k ∈ keys m
  · rw [mapSet_of_mem v hk]
    induction m with
    | nil => cases hk
    | cons q rest ih =>
      by_cases hq : q.1 = k
      · simp only [List.map_cons, if_pos (by simp [hq] : (q.1 == k) = true)]
        simp [mapGet, List.find?_cons_of_pos]
      · have hk' : k ∈ keys rest := by
          rcases mem_keys.mp hk with ⟨p, hp, hpk⟩
          rcases List.mem_cons.mp hp with heq | htail
          · exact absurd (by rw [← heq]; exact hpk) hq
          · exact mem_keys.mpr ⟨p, htail, hpk⟩
        simp only [List.map_cons, if_neg (by simp [hq] : ¬ (q.1 == k) = true)]
        simp only [mapGet] at ih ⊢
        rw [List.find?_cons_of_neg _ (by simp [hq])]
        exact ih hk'
  · rw [mapSet_of_not_mem v hk]
    induction m with
    | nil => simp [mapGet]
    | cons q rest ih =>
      have hq : ¬ q.1 = k := fun h => hk (mem_keys.mpr ⟨q, List.mem_cons_self _ _, h⟩)
      have hk' : k ∉ keys rest := fun h => hk (by
        rcases mem_keys.mp h with ⟨p, hp, hpk⟩
        exact mem_keys.mpr ⟨p, List.mem_cons_of_mem _ hp, hpk⟩)
      simp only [List.cons_append, mapGet] at ih ⊢
      rw [List.find?_cons_of_neg _ (by simp [hq])]
      exact ih hk'

theorem stableInsert_perm {α : Type} (le : α → α → Bool) (x : α) (l : List α) :
    (stableInsert le x l).Perm (x :: l) := by
  induction l with
  | nil => simp [stableInsert]
  | cons y ys ih =>
    simp only [stableInsert]
    by_cases hle : le y x
    · rw [if_pos hle]
      exact (ih.cons y).trans (List.Perm.swap x y ys)
    · rw [if_neg hle]

theorem stableSort_aux_perm {α : Type} (le : α → α → Bool) (l acc : List α) :
    (l.foldl (fun acc x => stableInsert le x acc) acc).Perm (l ++ acc) := by
  induction l generalizing acc with
  | nil => simp
  | cons x xs ih =>
    simp only [List.foldl_cons, List.cons_append]
    exact ((ih (stableInsert le x acc)).trans
      ((stableInsert_perm le x acc).append_left xs)).trans List.perm_middle

theorem stableSort_perm {α : Type} (le : α → α → Bool) (l : List α) :
    (stableSort le l).Perm l := by
  simpa using stableSort_aux_perm le l []

theorem mem_stableSort {α : Type} {le : α → α → Bool} {l : List α} {x : α} :
    x ∈ stableSort le l ↔ x ∈ l :=
  (stableSort_perm le l).mem_iff

theorem mem_mapDelete_iff {α : Type} {m : List (Nat × α)} {k : Nat} {p : Nat × α} :
    p ∈ mapDelete m k ↔ p ∈ m ∧ ¬ p.1 = k := by
  simp [mapDelete, List.mem_filter]

theorem withinBounds_iff {s : CacheState} :
    withinBounds s = true ↔
      s.entries.length ≤ THUMB_MAX_ENTRIES ∧ s.totalBytes ≤ THUMB_MAX_TOTAL_BYTES := by
  simp [withinBounds]

theorem removeThumbnail_eq_of_none {s : CacheState} {k : Nat}
    (h : mapGet s.entries k = none) : removeThumbnail s k = s := by
  simp [removeThumbnail, h]

theorem removeThumbnail_eq_of_some {s : CacheState} {k : Nat} {e : ThumbEntry}
    (h : mapGet s.entries k = some e) :
    removeThumbnail s k =
      ⟨mapDelete s.entries k, s.totalBytes - e.bytes, mapDelete s.storage k⟩ := by
  simp [removeThumbnail, h]

theorem removeThumbnail_consistent {s : CacheState} (k : Nat) (hc : consistent s) :
    consistent (removeThumbnail s k) := by
  obtain ⟨htb, hnd, hpos⟩ := hc
  cases hget : mapGet s.entries k with
  | none => rw [removeThumbnail_eq_of_none hget]; exact ⟨htb, hnd, hpos⟩
  | some e =>
    rw [removeThumbnail_eq_of_some hget]
    refine ⟨?_, keys_mapDelete_nodup hnd, ?_⟩
    · show s.totalBytes - e.bytes = entriesBytes (mapDelete s.entries k)
      rw [entriesBytes_mapDelete hnd (mapGet_mem hget), htb]
    · intro p hp
      exact hpos p (mem_mapDelete hp)

theorem removeThumbnail_withinBounds {s : CacheState} (k : Nat) (hc : consistent s)
    (hw : withinBounds s = true) : withinBounds (removeThumbnail s k) = true := by
  obtain ⟨hlen, htb⟩ := withinBounds_iff.mp hw
  cases hget : mapGet s.entries k with
  | none => rw [removeThumbnail_eq_of_none hget]; exact hw
  | some e =>
    rw [removeThumbnail_eq_of_some hget]
    refine withinBounds_iff.mpr ⟨?_, ?_⟩
    · exact le_trans (length_mapDelete_le _ _) hlen
    · have hpos : 0 ≤ e.bytes := hc.2.2 _ (mapGet_mem hget)
      show s.totalBytes - e.bytes ≤ THUMB_MAX_TOTAL_BYTES
      omega

theorem evictLoop_consistent (l : List (Nat × ThumbEntry)) :
    ∀ s : CacheState, consistent s → consistent (evictLoop s l) := by
  induction l with
  | nil => intro s hc; exact hc
  | cons p rest ih =>
    intro s hc
    obtain ⟨k, e⟩ := p
    simp only [evictLoop]
    by_cases hw : withinBounds s = true
    · rw [if_pos hw]; exact hc
    · rw [if_neg hw]; exact ih _ (removeThumbnail_consistent k hc)

theorem evictLoop_bounds (l : List (Nat × ThumbEntry)) :
    ∀ s : CacheState, consistent s →
      (∀ p ∈ s.entries, p.1 ∈ l.map (fun q => q.1)) →
      withinBounds (evictLoop s l) = true := by
  induction l with
  | nil =>
    intro s hc hkeys
    have hempty : s.entries = [] := by
      cases hent : s.entries with
      | nil => rfl
      | cons p rest =>
        exact absurd (hkeys p (by rw [hent]; exact List.mem_cons_self _ _)) (by simp)
    have htb : s.totalBytes = 0 := by
      rw [hc.1, hempty]; simp [entriesBytes]
    refine withinBounds_iff.mpr ⟨?_, ?_⟩
    · simp [evictLoop, hempty, THUMB_MAX_ENTRIES]
    · simp only [evictLoop, htb, THUMB_MAX_TOTAL_BYTES]
      norm_num
  | cons p rest ih =>
    intro s hc hkeys
    obtain ⟨k, e⟩ := p
    simp only [evictLoop]
    by_cases hw : withinBounds s = true
    · rw [if_pos hw]; exact hw
    · rw [if_neg hw]
      apply ih _ (removeThumbnail_consistent k hc)
      intro q hq
      cases hget : mapGet s.entries k with
      | none =>
        rw [removeThumbnail_eq_of_none hget] at hq
        have hq1 : q.1 = k ∨ q.1 ∈ rest.map (fun q => q.1) := by
          have := hkeys q hq
          simpa using this
        rcases hq1 with hqk | hqrest
        · exact absurd (mem_keys.mpr ⟨q, hq, hqk⟩) (not_mem_keys_of_mapGet_none hget)
        · exact hqrest
      | some e' =>
        rw [removeThumbnail_eq_of_some hget] at hq
        obtain ⟨hqm, hqk⟩ := mem_mapDelete_iff.mp hq
        have hq1 : q.1 = k ∨ q.1 ∈ rest.map (fun q => q.1) := by
          have := hkeys q hqm
          simpa using this
        rcases hq1 with hqk' | hqrest
        · exact absurd hqk' hqk
        · exact hqrest

theorem evict_consistent {s : CacheState} (hc : consistent s) :
    consistent (evictThumbnailsIfNeeded s) := by
  unfold evictThumbnailsIfNeeded
  by_cases hw : withinBounds s = true
  · rw [if_pos hw]; exact hc
  · rw [if_neg hw]; exact evictLoop_consistent _ _ hc

theorem evict_withinBounds {s : CacheState} (hc : consistent s) :
    withinBounds (evictThumbnailsIfNeeded s) = true := by
  unfold evictThumbnailsIfNeeded
  by_cases hw : withinBounds s = true
  · rw [if_pos hw]; exact hw
  · rw [if_neg hw]
    apply evictLoop_bounds _ _ hc
    intro p hp
    exact List.mem_map.mpr ⟨p, mem_stableSort.mpr hp, rfl⟩

theorem putBytes_nonneg (dataUrl : Option String) : 0 ≤ putBytes dataUrl := by
  cases dataUrl with
  | none => simp [putBytes]
  | some d =>
    simp only [putBytes]
    by_cases hd : d == ""
    · rw [if_pos hd]
    · rw [if_neg hd]; exact Int.natCast_nonneg _

theorem savePre_consistent {s : CacheState} (hc : consistent s) (tabId : Nat)
    (dataUrl : Option String) (blocked : Bool) (lastUpdated : Option Int) :
    consistent (savePre s tabId dataUrl blocked lastUpdated) := by
  obtain ⟨htb, hnd, hpos⟩ := hc
  have hmem' : ∀ p ∈ mapSet s.entries tabId
      (⟨dataUrl, blocked, lastUpdated, putBytes dataUrl⟩ : ThumbEntry), 0 ≤ p.2.bytes := by
    intro p hp
    rcases mem_mapSet hp with hpv | hpm
    · rw [hpv]; exact putBytes_nonneg dataUrl
    · exact hpos p hpm
  cases hget : mapGet s.entries tabId with
  | none =>
    have hnk := not_mem_keys_of_mapGet_none hget
    refine ⟨?_, keys_mapSet_nodup _ hnd, hmem'⟩
    show (match mapGet s.entries tabId with
      | some e => s.totalBytes - e.bytes | none => s.totalBytes) + putBytes dataUrl = _
    rw [hget]
    show s.totalBytes + putBytes dataUrl =
      entriesBytes (mapSet s.entries tabId ⟨dataUrl, blocked, lastUpdated, putBytes dataUrl⟩)
    rw [mapSet_of_not_mem _ hnk, entriesBytes_append_single, htb]
  | some e =>
    have hk := mem_keys_of_mapGet hget
    refine ⟨?_, keys_mapSet_nodup _ hnd, hmem'⟩
    show (match mapGet s.entries tabId with
      | some e => s.totalBytes - e.bytes | none => s.totalBytes) + putBytes dataUrl = _
    rw [hget]
    show s.totalBytes - e.bytes + putBytes dataUrl =
      entriesBytes (mapSet s.entries tabId ⟨dataUrl, blocked, lastUpdated, putBytes dataUrl⟩)
    rw [mapSet_of_mem _ hk, entriesBytes_map_replace _ hnd (mapGet_mem hget), htb]

theorem saveThumbnail_consistent {s : CacheState} (hc : consistent s) (tabId : Nat)
    (dataUrl : Option String) (blocked : Bool) (lastUpdated : Option Int) :
    consistent (saveThumbnail s tabId dataUrl blocked lastUpdated) :=
  evict_consistent (savePre_consistent hc tabId dataUrl blocked lastUpdated)

theorem saveThumbnail_withinBounds {s : CacheState} (hc : consistent s) (tabId : Nat)
    (dataUrl : Option String) (blocked : Bool) (lastUpdated : Option Int) :
    withinBounds (saveThumbnail s tabId dataUrl blocked lastUpdated) = true :=
  evict_withinBounds (savePre_consistent hc tabId dataUrl blocked lastUpdated)

/-- The inductive invariant for Cache Store operation sequences. -/
def storeInv (s : CacheState) : Prop := consistent s ∧ withinBounds s = true

theorem applyStoreOp_inv {s : CacheState} (h : storeInv s) (op : StoreOp) :
    storeInv (applyStoreOp s op) := by
  obtain ⟨hc, hw⟩ := h
  cases op with
  | put tabId dataUrl blocked lastUpdated =>
    exact ⟨saveThumbnail_consistent hc tabId dataUrl blocked lastUpdated,
           saveThumbnail_withinBounds hc tabId dataUrl blocked lastUpdated⟩
  | rem tabId =>
    exact ⟨removeThumbnail_consistent tabId hc, removeThumbnail_withinBounds tabId hc hw⟩

theorem emptyCacheState_inv : storeInv emptyCacheState := by
  refine ⟨⟨?_, ?_, ?_⟩, ?_⟩
  · simp [emptyCacheState, entriesBytes]
  · simp [emptyCacheState, keys]
  · intro p hp; cases hp
  · decide

theorem storeOps_inv (ops : List StoreOp) : storeInv (applyStoreOps ops) := by
  have : ∀ s : CacheState, storeInv s → storeInv (ops.foldl applyStoreOp s) := by
    induction ops with
    | nil => intro s h; exact h
    | cons op rest ih =>
      intro s h
      exact ih _ (applyStoreOp_inv h op)
  exact this emptyCacheState emptyCacheState_inv

/-- C1: for every sequence of `put`/`remove` operations on the Cache Store
(each `put`/`remove` runs its eviction pass, as in the source), the
resulting entry count is at most `THUMB_MAX_ENTRIES = 120` and the running
byte total is at most `THUMB_MAX_TOTAL_BYTES = 8 MiB`.  Since every prefix
of a sequence is itself a sequence, this bounds the state after each
operation. -/
theorem capacity_invariant_C1 (ops : List StoreOp) :
    (applyStoreOps ops).entries.length ≤ THUMB_MAX_ENTRIES ∧
    (applyStoreOps ops).totalBytes = entriesBytes (applyStoreOps ops).entries ∧
    (applyStoreOps ops).totalBytes ≤ THUMB_MAX_TOTAL_BYTES :=
  ⟨(withinBounds_iff.mp (storeOps_inv ops).2).1, (storeOps_inv ops).1.1,
    (withinBounds_iff.mp (storeOps_inv ops).2).2⟩

theorem mem_stableInsert {α : Type} {le : α → α → Bool} {x y : α} {l : List α} :
    y ∈ stableInsert le x l ↔ y = x ∨ y ∈ l := by
  rw [(stableInsert_perm le x l).mem_iff]
  simp

theorem stableInsert_pairwise {α : Type} {le : α → α → Bool}
    (htrans : ∀ a b c, le a b = true → le b c = true → le a c = true)
    (htot : ∀ a b, le a b = true ∨ le b a = true)
    {x : α} {l : List α} (h : l.Pairwise (fun a b => le a b = true)) :
    (stableInsert le x l).Pairwise (fun a b => le a b = true) := by
  induction l with
  | nil => simp [stableInsert]
  | cons y ys ih =>
    rw [List.pairwise_cons] at h
    obtain ⟨hy, hys⟩ := h
    simp only [stableInsert]
    by_cases hle : le y x = true
    · rw [if_pos hle, List.pairwise_cons]
      refine ⟨?_, ih hys⟩
      intro z hz
      rcases mem_stableInsert.mp hz with rfl | hzys
      · exact hle
      · exact hy z hzys
    · rw [if_neg hle, List.pairwise_cons]
      have hxy : le x y = true := (htot x y).resolve_right hle
      refine ⟨?_, List.pairwise_cons.mpr ⟨hy, hys⟩⟩
      intro z hz
      rcases List.mem_cons.mp hz with rfl | hzys
      · exact hxy
      · exact htrans x y z hxy (hy z hzys)

theorem stableSort_pairwise {α : Type} (le : α → α → Bool)
    (htrans : ∀ a b c, le a b = true → le b c = true → le a c = true)
    (htot : ∀ a b, le a b = true ∨ le b a = true) (l : List α) :
    (stableSort le l).Pairwise (fun a b => le a b = true) := by
  have haux : ∀ acc : List α, acc.Pairwise (fun a b => le a b = true) →
      (l.foldl (fun acc x => stableInsert le x acc) acc).Pairwise (fun a b => le a b = true) := by
    induction l with
    | nil => intro acc h; exact h
    | cons x xs ih => intro acc h; exact ih _ (stableInsert_pairwise htrans htot h)
  exact haux [] List.Pairwise.nil

theorem evictLE_trans (a b c : Nat × ThumbEntry) :
    evictLE a b = true → evictLE b c = true → evictLE a c = true := by
  simp only [evictLE, decide_eq_true_iff]
  exact le_trans

theorem evictLE_total (a b : Nat × ThumbEntry) :
    evictLE a b = true ∨ evictLE b a = true := by
  simp only [evictLE, decide_eq_true_iff]
  exact le_total _ _

/-- The list of entries removed by `evictLoop`, in removal order. -/
def evictLoopTrace : CacheState → List (Nat × ThumbEntry) → List (Nat × ThumbEntry)
  | _, [] => []
  | s, (tabId, e) :: rest =>
    if withinBounds s then [] else (tabId, e) :: evictLoopTrace (removeThumbnail s tabId) rest

/-- The entries removed by one `evictThumbnailsIfNeeded` pass, in order. -/
def evictTrace (s : CacheState) : List (Nat × ThumbEntry) :=
  if withinBounds s then [] else evictLoopTrace s (evictCandidates s)

/-- Apply `removeThumbnail` for each listed entry, left to right. -/
def removeList (s : CacheState) (l : List (Nat × ThumbEntry)) : CacheState :=
  l.foldl (fun acc p => removeThumbnail acc p.1) s

theorem evictLoop_eq_removeList (l : List (Nat × ThumbEntry)) :
    ∀ s, evictLoop s l = removeList s (evictLoopTrace s l) := by
  induction l with
  | nil => intro s; rfl
  | cons p rest ih =>
    intro s
    obtain ⟨k, e⟩ := p
    simp only [evictLoop, evictLoopTrace]
    by_cases hw : withinBounds s = true
    · rw [if_pos hw, if_pos hw]; rfl
    · rw [if_neg hw, if_neg hw]
      show evictLoop (removeThumbnail s k) rest = removeList s ((k, e) :: _)
      rw [ih]
      rfl

theorem evict_eq_removeList (s : CacheState) :
    evictThumbnailsIfNeeded s = removeList s (evictTrace s) := by
  unfold evictThumbnailsIfNeeded evictTrace
  by_cases hw : withinBounds s = true
  · rw [if_pos hw, if_pos hw]; rfl
  · rw [if_neg hw, if_neg hw]; exact evictLoop_eq_removeList _ s

theorem evictLoopTrace_take (l : List (Nat × ThumbEntry)) :
    ∀ s, ∃ k, evictLoopTrace s l = l.take k := by
  induction l with
  | nil => intro s; exact ⟨0, rfl⟩
  | cons p rest ih =>
    intro s
    obtain ⟨k, e⟩ := p
    simp only [evictLoopTrace]
    by_cases hw : withinBounds s = true
    · rw [if_pos hw]; exact ⟨0, rfl⟩
    · rw [if_neg hw]
      obtain ⟨n, hn⟩ := ih (removeThumbnail s k)
      exact ⟨n + 1, by rw [List.take_succ_cons, hn]⟩

theorem evictTrace_pairwise_lt (s : CacheState)
    (hdist : (s.entries.map (fun p => jsSortKey p.2)).Pairwise (fun a b => a ≠ b)) :
    (evictTrace s).Pairwise (fun p q => jsSortKey p.2 < jsSortKey q.2) := by
  have hcand_le : (evictCandidates s).Pairwise (fun a b => evictLE a b = true) :=
    stableSort_pairwise evictLE evictLE_trans evictLE_total _
  have hdist' : s.entries.Pairwise (fun p q => jsSortKey p.2 ≠ jsSortKey q.2) :=
    List.pairwise_map.mp hdist
  have hcand_ne : (evictCandidates s).Pairwise (fun p q => jsSortKey p.2 ≠ jsSortKey q.2) :=
    ((stableSort_perm evictLE s.entries).pairwise_iff (fun h => h.symm)).mpr hdist'
  have hcand : (evictCandidates s).Pairwise (fun p q => jsSortKey p.2 < jsSortKey q.2) := by
    refine (hcand_le.and hcand_ne).imp ?_
    rintro a b ⟨hle, hne⟩
    exact lt_of_le_of_ne (by simpa [evictLE, decide_eq_true_iff] using hle) hne
  unfold evictTrace
  by_cases hw : withinBounds s = true
  · rw [if_pos hw]; exact List.Pairwise.nil
  · rw [if_neg hw]
    obtain ⟨k, hk⟩ := evictLoopTrace_take (evictCandidates s) s
    rw [hk]
    exact hcand.sublist (List.take_sublist _ _)

theorem evictLoopTrace_stop (l : List (Nat × ThumbEntry)) :
    ∀ s i, i < (evictLoopTrace s l).length →
      withinBounds (removeList s ((evictLoopTrace s l).take i)) = false := by
  induction l with
  | nil => intro s i h; simp [evictLoopTrace] at h
  | cons p rest ih =>
    intro s i h
    obtain ⟨k, e⟩ := p
    simp only [evictLoopTrace] at h ⊢
    by_cases hw : withinBounds s = true
    · rw [if_pos hw] at h; simp at h
    · rw [if_neg hw] at h ⊢
      cases i with
      | zero =>
        show withinBounds (removeList s (List.take 0 _)) = false
        rw [List.take_zero]
        exact Bool.eq_false_iff.mpr hw
      | succ j =>
        rw [List.length_cons] at h
        rw [List.take_succ_cons]
        show withinBounds (removeList s ((k, e) :: _)) = false
        have hfold : removeList s ((k, e) ::
            (evictLoopTrace (removeThumbnail s k) rest).take j) =
            removeList (removeThumbnail s k)
              ((evictLoopTrace (removeThumbnail s k) rest).take j) := rfl
        rw [hfold]
        exact ih (removeThumbnail s k) j (Nat.lt_of_succ_lt_succ h)

theorem evictTrace_stop (s : CacheState) :
    ∀ i, i < (evictTrace s).length →
      withinBounds (removeList s ((evictTrace s).take i)) = false := by
  intro i h
  unfold evictTrace at h ⊢
  by_cases hw : withinBounds s = true
  · rw [if_pos hw] at h; simp at h
  · rw [if_neg hw] at h ⊢; exact evictLoopTrace_stop _ s i h

/-- One `put` of the §8 scenario: tab id `i`, no image payload, timestamp `i`. -/
def putOp (i : Nat) : StoreOp := StoreOp.put i none false (some (i : Int))

/-- The §8 scenario: 121 sequential puts for tab ids 1..121 with
increasing timestamps. -/
def scenario121 : List StoreOp := (List.range' 1 121).map putOp

/-- The store after the first `k ≤ 120` scenario puts. -/
def scenarioState (k : Nat) : CacheState :=
  ⟨(List.range' 1 k).map (fun i => (i, ⟨none, false, some (i : Int), 0⟩)), 0,
   (List.range' 1 k).map (fun i => (i, ⟨none, false, some (i : Int), some 0⟩))⟩

/-- The store after all 121 scenario puts: tabs 2..121 remain. -/
def scenarioFinal : CacheState :=
  ⟨(List.range' 2 120).map (fun i => (i, ⟨none, false, some (i : Int), 0⟩)), 0,
   (List.range' 2 120).map (fun i => (i, ⟨none, false, some (i : Int), some 0⟩))⟩

set_option maxRecDepth 8000 in
theorem scenario_chunk1 :
    List.foldl applyStoreOp emptyCacheState ((List.range' 1 40).map putOp) =
      scenarioState 40 := by decide

set_option maxRecDepth 8000 in
theorem scenario_chunk2 :
    List.foldl applyStoreOp (scenarioState 40) ((List.range' 41 40).map putOp) =
      scenarioState 80 := by decide

set_option maxRecDepth 8000 in
theorem scenario_chunk3 :
    List.foldl applyStoreOp (scenarioState 80) ((List.range' 81 40).map putOp) =
      scenarioState 120 := by decide

set_option maxRecDepth 8000 in
theorem scenario_laststep :
    applyStoreOp (scenarioState 120) (putOp 121) = scenarioFinal := by decide

set_option maxRecDepth 8000 in
theorem scenario_split :
    scenario121 =
      (List.range' 1 40).map putOp ++
        ((List.range' 41 40).map putOp ++
          ((List.range' 81 40).map putOp ++ [putOp 121])) := by decide

set_option maxRecDepth 8000 in
theorem scenario121_result : applyStoreOps scenario121 = scenarioFinal := by
  rw [applyStoreOps, scenario_split, List.foldl_append, List.foldl_append,
    List.foldl_append, scenario_chunk1, scenario_chunk2, scenario_chunk3]
  exact scenario_laststep

set_option maxRecDepth 8000 in
/-- C2: whenever eviction is triggered, the removed entries (the eviction
trace) have strictly ascending `lastUpdated` sort keys (`lastUpdated ?? 0`,
so entries without a timestamp sort first) provided the keys are pairwise
distinct; before each single removal both bounds were still violated
(so eviction stops as soon as both bounds hold); the eviction pass equals
removing exactly the trace, one entry at a time; and 121 sequential puts
for distinct tabs 1..121 with increasing timestamps leave exactly tabs
2..121 present. -/
theorem eviction_order_C2 (s : CacheState)
    (hdist : (s.entries.map (fun p => jsSortKey p.2)).Pairwise (fun a b => a ≠ b)) :
    ((evictTrace s).Pairwise (fun p q => jsSortKey p.2 < jsSortKey q.2) ∧
      (∀ i, i < (evictTrace s).length →
        withinBounds (removeList s ((evictTrace s).take i)) = false) ∧
      evictThumbnailsIfNeeded s = removeList s (evictTrace s)) ∧
    keys (applyStoreOps scenario121).entries = List.range' 2 120 := by
  refine ⟨⟨evictTrace_pairwise_lt s hdist, evictTrace_stop s, evict_eq_removeList s⟩, ?_⟩
  rw [scenario121_result]
  decide

/-- Concrete over-budget store used to instantiate `eviction_order_C2`. -/
def c2WitnessState : CacheState :=
  ⟨[(1, ⟨some "data:image/jpeg;base64,UQ==", false, some 10, 5000000⟩),
    (2, ⟨some "data:image/jpeg;base64,Ug==", false, some 20, 4000000⟩)],
   9000000, []⟩

theorem eviction_order_C2_witness :
    ((evictTrace c2WitnessState).Pairwise (fun p q => jsSortKey p.2 < jsSortKey q.2) ∧
      (∀ i, i < (evictTrace c2WitnessState).length →
        withinBounds (removeList c2WitnessState ((evictTrace c2WitnessState).take i)) = false) ∧
      evictThumbnailsIfNeeded c2WitnessState =
        removeList c2WitnessState (evictTrace c2WitnessState)) ∧
    keys (applyStoreOps scenario121).entries = List.range' 2 120 :=
  eviction_order_C2 c2WitnessState (by decide)

/-- The entries a hydration pass builds from the durable records, in
storage order. -/
def parsedEntries (now : Int) (st : List (Nat × RawRecord)) : List (Nat × ThumbEntry) :=
  st.map (fun q => (q.1, parseRecord now q.2))

/-- The total bytes a hydration pass adds to the running total. -/
def parsedBytes (now : Int) (st : List (Nat × RawRecord)) : Int :=
  (st.map (fun q => (parseRecord now q.2).bytes)).sum

theorem keys_parsedEntries (now : Int) (st : List (Nat × RawRecord)) :
    keys (parsedEntries now st) = keys st := by
  simp [keys, parsedEntries, List.map_map]

theorem mapSet_self_mem {α : Type} {m : List (Nat × α)} {k : Nat} {v : α}
    (hmem : (k, v) ∈ m) (hnd : (keys m).Nodup) : mapSet m k v = m := by
  have hk : k ∈ keys m := mem_keys.mpr ⟨(k, v), hmem, rfl⟩
  rw [mapSet_of_mem v hk]
  induction m with
  | nil => cases hmem
  | cons q rest ih =>
    by_cases hq : q.1 = k
    · have hqe : q = (k, v) := eq_of_mem_nodup_head hnd hq hmem
      have hrest : k ∉ keys rest := not_mem_keys_tail hnd hq
      simp only [List.map_cons, if_pos (by simp [hq] : (q.1 == k) = true)]
      rw [map_replace_of_not_mem v hrest, hqe]
    · have hmem' : (k, v) ∈ rest := by
        rcases List.mem_cons.mp hmem with heq | htail
        · exact absurd (by rw [← heq]) hq
        · exact htail
      have hnd' : (keys rest).Nodup := by
        simp only [keys, List.map_cons, List.nodup_cons] at hnd
        exact hnd.2
      simp only [List.map_cons, if_neg (by simp [hq] : ¬ (q.1 == k) = true)]
      rw [ih hmem' hnd' (mem_keys.mpr ⟨(k, v), hmem', rfl⟩)]

theorem hydrateSteps_fresh (now : Int) (st : List (Nat × RawRecord)) :
    ∀ (es : List (Nat × ThumbEntry)) (tb : Int) (stor : List (Nat × RawRecord)),
      (keys st).Nodup → (∀ q ∈ st, q.1 ∉ keys es) →
      List.foldl (hydrateStep now) ⟨es, tb, stor⟩ st =
        ⟨es ++ parsedEntries now st, tb + parsedBytes now st, stor⟩ := by
  induction st with
  | nil =>
    intro es tb stor _ _
    simp [parsedEntries, parsedBytes]
  | cons kv rest ih =>
    intro es tb stor hnd hdisj
    obtain ⟨k, v⟩ := kv
    have hknotin : k ∉ keys es := hdisj (k, v) (List.mem_cons_self _ _)
    have hstep : hydrateStep now ⟨es, tb, stor⟩ (k, v) =
        ⟨es ++ [(k, parseRecord now v)], tb + (parseRecord now v).bytes, stor⟩ := by
      simp only [hydrateStep]
      rw [mapSet_of_not_mem _ hknotin]
    have hnd' : (keys rest).Nodup := by
      simp only [keys, List.map_cons, List.nodup_cons] at hnd
      exact hnd.2
    have hdisj' : ∀ q ∈ rest, q.1 ∉ keys (es ++ [(k, parseRecord now v)]) := by
      intro q hq
      simp only [keys, List.map_append, List.mem_append]
      rintro (hin | hin)
      · exact hdisj q (List.mem_cons_of_mem _ hq) hin
      · have hqk : q.1 = k := by simpa using hin
        have : k ∉ keys rest := not_mem_keys_tail hnd rfl
        exact this (mem_keys.mpr ⟨q, hq, hqk⟩)
    rw [List.foldl_cons, hstep, ih _ _ _ hnd' hdisj']
    simp [parsedEntries, parsedBytes, List.append_assoc]
    ring

theorem hydrateSteps_again (now : Int) (st : List (Nat × RawRecord)) :
    ∀ (es : List (Nat × ThumbEntry)) (tb : Int) (stor : List (Nat × RawRecord)),
      (keys es).Nodup → (∀ q ∈ st, (q.1, parseRecord now q.2) ∈ es) →
      List.foldl (hydrateStep now) ⟨es, tb, stor⟩ st =
        ⟨es, tb + parsedBytes now st, stor⟩ := by
  induction st with
  | nil =>
    intro es tb stor _ _
    simp [parsedBytes]
  | cons kv rest ih =>
    intro es tb stor hnd hmem
    obtain ⟨k, v⟩ := kv
    have hstep : hydrateStep now ⟨es, tb, stor⟩ (k, v) =
        ⟨es, tb + (parseRecord now v).bytes, stor⟩ := by
      simp only [hydrateStep]
      rw [mapSet_self_mem (hmem (k, v) (List.mem_cons_self _ _)) hnd]
    rw [List.foldl_cons, hstep,
      ih _ _ _ hnd (fun q hq => hmem q (List.mem_cons_of_mem _ hq))]
    simp [parsedBytes]
    ring

theorem evict_eq_self {s : CacheState} (hw : withinBounds s = true) :
    evictThumbnailsIfNeeded s = s := by
  unfold evictThumbnailsIfNeeded
  rw [if_pos hw]

/-- A one-record durable snapshot on which hydration is not idempotent. -/
def c3Start : CacheState :=
  ⟨[], 0, [(1, ⟨some "data:,AAAA", false, some 5, some 3⟩)]⟩

/-- C3 counterexample: hydrating twice in a row from the same durable
snapshot (hydration does not modify storage here, and no mutation happens
in between) does NOT yield an identical in-memory state: the running byte
total is counted twice (6 instead of 3), because the hydration loop adds
each record's bytes to `totalBytes` without subtracting the bytes of the
entry it overwrites. -/
theorem hydration_not_idempotent_C3 :
    (hydrateThumbnailCache 0 c3Start).storage = c3Start.storage ∧
    (hydrateThumbnailCache 0 (hydrateThumbnailCache 0 c3Start)).entries =
      (hydrateThumbnailCache 0 c3Start).entries ∧
    (hydrateThumbnailCache 0 c3Start).totalBytes = 3 ∧
    (hydrateThumbnailCache 0 (hydrateThumbnailCache 0 c3Start)).totalBytes = 6 ∧
    hydrateThumbnailCache 0 (hydrateThumbnailCache 0 c3Start) ≠
      hydrateThumbnailCache 0 c3Start := by decide

/-- C3 amended: hydrating twice in a row from the same durable snapshot
(starting from a fresh in-memory state) leaves the entry index and the
storage identical, but the running byte total grows by the snapshot's byte
sum again (so the in-memory state is not identical, and the inflated total
can trigger further eviction).  The hypotheses keep both passes below the
eviction thresholds so that no eviction interferes. -/
theorem hydration_twice_C3_amended (now : Int) (st : List (Nat × RawRecord))
    (hnd : (keys st).Nodup)
    (hlen : st.length ≤ THUMB_MAX_ENTRIES)
    (hpos : ∀ q ∈ st, 0 ≤ (parseRecord now q.2).bytes)
    (hsum : 2 * parsedBytes now st ≤ THUMB_MAX_TOTAL_BYTES) :
    (hydrateThumbnailCache now (hydrateThumbnailCache now ⟨[], 0, st⟩)).entries =
      (hydrateThumbnailCache now ⟨[], 0, st⟩).entries ∧
    (hydrateThumbnailCache now (hydrateThumbnailCache now ⟨[], 0, st⟩)).storage =
      (hydrateThumbnailCache now ⟨[], 0, st⟩).storage ∧
    (hydrateThumbnailCache now (hydrateThumbnailCache now ⟨[], 0, st⟩)).totalBytes =
      (hydrateThumbnailCache now ⟨[], 0, st⟩).totalBytes + parsedBytes now st := by
  have hB : 0 ≤ parsedBytes now st := by
    apply List.sum_nonneg
    intro x hx
    obtain ⟨q, hq, hqx⟩ := List.mem_map.mp hx
    rw [← hqx]
    exact hpos q hq
  have hBmax : parsedBytes now st ≤ THUMB_MAX_TOTAL_BYTES := by
    simp only [THUMB_MAX_TOTAL_BYTES] at hsum ⊢
    omega
  have h2Bmax : parsedBytes now st + parsedBytes now st ≤ THUMB_MAX_TOTAL_BYTES := by
    simp only [THUMB_MAX_TOTAL_BYTES] at hsum ⊢
    omega
  have hfold1 : hydrateFold now ⟨[], 0, st⟩ =
      ⟨parsedEntries now st, parsedBytes now st, st⟩ := by
    have := hydrateSteps_fresh now st [] 0 st hnd (by intro q _; simp [keys])
    simpa [hydrateFold] using this
  have hlen' : (parsedEntries now st).length ≤ THUMB_MAX_ENTRIES := by
    simpa [parsedEntries] using hlen
  have hw1 : withinBounds ⟨parsedEntries now st, parsedBytes now st, st⟩ = true :=
    withinBounds_iff.mpr ⟨hlen', hBmax⟩
  have h1 : hydrateThumbnailCache now ⟨[], 0, st⟩ =
      ⟨parsedEntries now st, parsedBytes now st, st⟩ := by
    rw [hydrateThumbnailCache, hfold1]
    exact evict_eq_self hw1
  have hfold2 : hydrateFold now ⟨parsedEntries now st, parsedBytes now st, st⟩ =
      ⟨parsedEntries now st, parsedBytes now st + parsedBytes now st, st⟩ := by
    have := hydrateSteps_again now st (parsedEntries now st) (parsedBytes now st) st
      (by rw [keys_parsedEntries]; exact hnd)
      (by intro q hq; exact List.mem_map.mpr ⟨q, hq, rfl⟩)
    simpa [hydrateFold] using this
  have hw2 : withinBounds
      ⟨parsedEntries now st, parsedBytes now st + parsedBytes now st, st⟩ = true :=
    withinBounds_iff.mpr ⟨hlen', h2Bmax⟩
  have h2 : hydrateThumbnailCache now ⟨parsedEntries now st, parsedBytes now st, st⟩ =
      ⟨parsedEntries now st, parsedBytes now st + parsedBytes now st, st⟩ := by
    rw [hydrateThumbnailCache, hfold2]
    exact evict_eq_self hw2
  rw [h1, h2]
  exact ⟨rfl, rfl, rfl⟩

theorem hydration_twice_C3_amended_witness :
    (hydrateThumbnailCache 0 (hydrateThumbnailCache 0 ⟨[], 0, c3Start.storage⟩)).entries =
      (hydrateThumbnailCache 0 ⟨[], 0, c3Start.storage⟩).entries ∧
    (hydrateThumbnailCache 0 (hydrateThumbnailCache 0 ⟨[], 0, c3Start.storage⟩)).storage =
      (hydrateThumbnailCache 0 ⟨[], 0, c3Start.storage⟩).storage ∧
    (hydrateThumbnailCache 0 (hydrateThumbnailCache 0 ⟨[], 0, c3Start.storage⟩)).totalBytes =
      (hydrateThumbnailCache 0 ⟨[], 0, c3Start.storage⟩).totalBytes +
        parsedBytes 0 c3Start.storage :=
  hydration_twice_C3_amended 0 c3Start.storage (by decide) (by decide)
    (by decide) (by decide)

/-- The cache mutations the service worker itself performs: a successful
capture write (`saveThumbnail(tabId, {dataUrl, blocked: false, lastUpdated: Date.now()})`),
a blocked-capture write (`saveThumbnail(tabId, {dataUrl: null, blocked: true, ...})`),
a removal (tab closed or replaced), a hydration call, and a service-worker
restart (fresh in-memory state, surviving session storage, then hydration). -/
inductive ProgOp
  | capture (tabId : Nat) (dataUrl : String) (now : Int)
  | blockedWrite (tabId : Nat) (now : Int)
  | close (tabId : Nat)
  | hydrate (now : Int)
  | restart (now : Int)
deriving DecidableEq, Repr

def applyProgOp (s : CacheState) : ProgOp → CacheState
  | .capture tabId dataUrl now => saveThumbnail s tabId (some dataUrl) false (some now)
  | .blockedWrite tabId now => saveThumbnail s tabId none true (some now)
  | .close tabId => removeThumbnail s tabId
  | .hydrate now => hydrateThumbnailCache now s
  | .restart now => hydrateThumbnailCache now ⟨[], 0, s.storage⟩

def applyProgOps (ops : List ProgOp) : CacheState :=
  ops.foldl applyProgOp emptyCacheState

/-- An in-memory entry as the program itself ever writes one: image data
is present exactly when the entry is not blocked, and `bytes` is the value
`saveThumbnail` computes from the data URL. -/
def GoodEntry (e : ThumbEntry) : Prop :=
  (e.dataUrl = none ↔ e.blocked = true) ∧ e.bytes = putBytes e.dataUrl

/-- A durable record as the program itself ever writes one. -/
def GoodRecord (v : RawRecord) : Prop :=
  (v.dataUrl = none ↔ v.blocked = true) ∧ v.bytes = some (putBytes v.dataUrl)

/-- Every entry and every durable record has the program-written shape. -/
def GoodState (s : CacheState) : Prop :=
  (∀ p ∈ s.entries, GoodEntry p.2) ∧ (∀ q ∈ s.storage, GoodRecord q.2)

theorem estimate_empty : estimateDataUrlBytes "" = 0 := by decide

theorem fallback_eq_putBytes (dataUrl : Option String) :
    (match dataUrl with
      | some d => (estimateDataUrlBytes d : Int)
      | none => 0) = putBytes dataUrl := by
  cases dataUrl with
  | none => rfl
  | some d =>
    by_cases hd : d = ""
    · subst hd
      simp [putBytes, estimate_empty]
    · simp [putBytes, hd]

theorem parseRecord_good {now : Int} {v : RawRecord} (hg : GoodRecord v) :
    GoodEntry (parseRecord now v) := by
  obtain ⟨hiff, hbytes⟩ := hg
  refine ⟨hiff, ?_⟩
  cases hdu : v.dataUrl with
  | none => simp [parseRecord, hbytes, hdu, putBytes]
  | some d =>
    by_cases hd : d = ""
    · subst hd
      simp [parseRecord, hbytes, hdu, putBytes, estimate_empty]
    · by_cases h0 : (estimateDataUrlBytes d : Int) = 0
      · simp [parseRecord, hbytes, hdu, putBytes, hd, h0]
      · simp [parseRecord, hbytes, hdu, putBytes, hd, h0]

theorem removeThumbnail_good {s : CacheState} (k : Nat) (hg : GoodState s) :
    GoodState (removeThumbnail s k) := by
  obtain ⟨he, hs⟩ := hg
  cases hget : mapGet s.entries k with
  | none => rw [removeThumbnail_eq_of_none hget]; exact ⟨he, hs⟩
  | some e =>
    rw [removeThumbnail_eq_of_some hget]
    exact ⟨fun p hp => he p (mem_mapDelete hp), fun q hq => hs q (mem_mapDelete hq)⟩

theorem evictLoop_good (l : List (Nat × ThumbEntry)) :
    ∀ s : CacheState, GoodState s → GoodState (evictLoop s l) := by
  induction l with
  | nil => intro s hg; exact hg
  | cons p rest ih =>
    intro s hg
    obtain ⟨k, e⟩ := p
    simp only [evictLoop]
    by_cases hw : withinBounds s = true
    · rw [if_pos hw]; exact hg
    · rw [if_neg hw]; exact ih _ (removeThumbnail_good k hg)

theorem evict_good {s : CacheState} (hg : GoodState s) :
    GoodState (evictThumbnailsIfNeeded s) := by
  unfold evictThumbnailsIfNeeded
  by_cases hw : withinBounds s = true
  · rw [if_pos hw]; exact hg
  · rw [if_neg hw]; exact evictLoop_good _ _ hg

theorem savePre_good {s : CacheState} (hg : GoodState s) (tabId : Nat)
    (dataUrl : Option String) (blocked : Bool) (lastUpdated : Option Int)
    (hshape : dataUrl = none ↔ blocked = true) :
    GoodState (savePre s tabId dataUrl blocked lastUpdated) := by
  obtain ⟨he, hs⟩ := hg
  constructor
  · intro p hp
    rcases mem_mapSet hp with hpv | hpm
    · rw [hpv]; exact ⟨hshape, rfl⟩
    · exact he p hpm
  · intro q hq
    rcases mem_mapSet hq with hqv | hqm
    · rw [hqv]; exact ⟨hshape, rfl⟩
    · exact hs q hqm

theorem saveThumbnail_good {s : CacheState} (hg : GoodState s) (tabId : Nat)
    (dataUrl : Option String) (blocked : Bool) (lastUpdated : Option Int)
    (hshape : dataUrl = none ↔ blocked = true) :
    GoodState (saveThumbnail s tabId dataUrl blocked lastUpdated) :=
  evict_good (savePre_good hg tabId dataUrl blocked lastUpdated hshape)

theorem hydrateSteps_good (now : Int) (st : List (Nat × RawRecord)) :
    ∀ acc : CacheState, GoodState acc → (∀ q ∈ st, GoodRecord q.2) →
      GoodState (List.foldl (hydrateStep now) acc st) := by
  induction st with
  | nil => intro acc hg _; exact hg
  | cons kv rest ih =>
    intro acc hg hrec
    rw [List.foldl_cons]
    apply ih
    · obtain ⟨he, hs⟩ := hg
      constructor
      · intro p hp
        rcases mem_mapSet hp with hpv | hpm
        · rw [hpv]
          exact parseRecord_good (hrec kv (List.mem_cons_self _ _))
        · exact he p hpm
      · intro q hq
        exact hs q hq
    · intro q hq
      exact hrec q (List.mem_cons_of_mem _ hq)

theorem hydrate_good {s : CacheState} (now : Int) (hg : GoodState s) :
    GoodState (hydrateThumbnailCache now s) := by
  unfold hydrateThumbnailCache hydrateFold
  exact evict_good (hydrateSteps_good now s.storage s hg hg.2)

theorem applyProgOp_good {s : CacheState} (hg : GoodState s) (op : ProgOp) :
    GoodState (applyProgOp s op) := by
  cases op with
  | capture tabId dataUrl now =>
    exact saveThumbnail_good hg tabId (some dataUrl) false (some now) (by simp)
  | blockedWrite tabId now =>
    exact saveThumbnail_good hg tabId none true (some now) (by simp)
  | close tabId => exact removeThumbnail_good tabId hg
  | hydrate now => exact hydrate_good now hg
  | restart now =>
    exact hydrate_good now ⟨fun p hp => absurd hp (List.not_mem_nil p), hg.2⟩

theorem progOps_good (ops : List ProgOp) : GoodState (applyProgOps ops) := by
  have haux : ∀ s : CacheState, GoodState s → GoodState (ops.foldl applyProgOp s) := by
    induction ops with
    | nil => intro s hg; exact hg
    | cons op rest ih => intro s hg; exact ih _ (applyProgOp_good hg op)
  exact haux emptyCacheState
    ⟨fun p hp => absurd hp (List.not_mem_nil p), fun q hq => absurd hq (List.not_mem_nil q)⟩

/-- C6: after any sequence of the program's own cache operations
(successful-capture writes, blocked writes, removals, hydrations,
restarts — each including its eviction pass), every entry with
`blocked = true` has no image data and a zero `bytes` contribution to the
running total. -/
theorem blocked_exclusivity_C6 (ops : List ProgOp) (tabId : Nat) (e : ThumbEntry)
    (hget : mapGet (applyProgOps ops).entries tabId = some e)
    (hblocked : e.blocked = true) :
    e.dataUrl = none ∧ e.bytes = 0 := by
  have hgood := (progOps_good ops).1 (tabId, e) (mapGet_mem hget)
  have hnone : e.dataUrl = none := hgood.1.mpr hblocked
  refine ⟨hnone, ?_⟩
  rw [hgood.2, hnone]
  rfl

theorem blocked_exclusivity_C6_witness :
    mapGet (applyProgOps [ProgOp.blockedWrite 1 5]).entries 1 =
      some ⟨none, true, some 5, 0⟩ ∧
    (⟨none, true, some 5, 0⟩ : ThumbEntry).dataUrl = none ∧
    (⟨none, true, some 5, 0⟩ : ThumbEntry).bytes = 0 := by
  refine ⟨by decide, ?_⟩
  exact blocked_exclusivity_C6 [ProgOp.blockedWrite 1 5] 1 ⟨none, true, some 5, 0⟩
    (by decide) rfl

/-- C4: for every tab id, against any state the program's own operations
can produce: `found` is true exactly when a non-blocked entry with image
data exists; `blocked` mirrors the entry's flag (false when no entry);
`storageKey` is the thumbnail storage key exactly when an entry exists;
`lastUpdated` is the entry's timestamp (null when no entry). -/
theorem thumb_get_C4 (ops : List ProgOp) (tabId : Nat) :
    ((thumbGetResponse (applyProgOps ops) tabId).found = true ↔
      ∃ e, mapGet (applyProgOps ops).entries tabId = some e ∧
        e.blocked = false ∧ e.dataUrl ≠ none) ∧
    (thumbGetResponse (applyProgOps ops) tabId).blocked =
      (match mapGet (applyProgOps ops).entries tabId with
        | some e => e.blocked
        | none => false) ∧
    (thumbGetResponse (applyProgOps ops) tabId).storageKey =
      (match mapGet (applyProgOps ops).entries tabId with
        | some _ => some (getThumbnailStorageKey tabId)
        | none => none) ∧
    (thumbGetResponse (applyProgOps ops) tabId).lastUpdated =
      (match mapGet (applyProgOps ops).entries tabId with
        | some e => e.lastUpdated
        | none => none) := by
  cases hget : mapGet (applyProgOps ops).entries tabId with
  | none =>
    have hresp : thumbGetResponse (applyProgOps ops) tabId = ⟨false, false, none, none⟩ := by
      simp [thumbGetResponse, hget]
    rw [hresp]
    refine ⟨?_, rfl, rfl, rfl⟩
    simp
  | some e =>
    have hresp : thumbGetResponse (applyProgOps ops) tabId =
        ⟨!e.blocked, e.blocked, some (getThumbnailStorageKey tabId), e.lastUpdated⟩ := by
      simp [thumbGetResponse, hget]
    rw [hresp]
    refine ⟨?_, rfl, rfl, rfl⟩
    constructor
    · intro hfound
      have hb : e.blocked = false := by
        simpa using hfound
      refine ⟨e, rfl, hb, ?_⟩
      have hgood := (progOps_good ops).1 (tabId, e) (mapGet_mem hget)
      intro hnone
      rw [hgood.1.mp hnone] at hb
      cases hb
    · rintro ⟨e', he', hb, -⟩
      have heq : e = e' := by simpa using he'
      rw [← heq] at hb
      simp [hb]

/-- The standard base64 alphabet. -/
def b64Alphabet : List Char :=
  "ABCDEFGHIJKLMNOPQRSTUVWXYZabcdefghijklmnopqrstuvwxyz0123456789+/".toList

def b64Char (n : Nat) : Char := b64Alphabet.getD n 'A'

/-- base64-encode one group of one, two or three bytes (`=`-padded). -/
def b64EncGroup : List Nat → List Char
  | [a] => [b64Char (a / 4), b64Char (a % 4 * 16), '=', '=']
  | [a, b] => [b64Char (a / 4), b64Char (a % 4 * 16 + b / 16), b64Char (b % 16 * 4), '=']
  | [a, b, c] => [b64Char (a / 4), b64Char (a % 4 * 16 + b / 16),
      b64Char (b % 16 * 4 + c / 64), b64Char (c % 64)]
  | _ => []

/-- Split a byte list into base64 groups of at most three bytes. -/
def b64Groups : List Nat → List (List Nat)
  | [] => []
  | [a] => [[a]]
  | [a, b] => [[a, b]]
  | a :: b :: c :: rest => [a, b, c] :: b64Groups rest

/-- Standard padded base64 encoding of a byte list. -/
def base64Encode (bytes : List Nat) : String :=
  String.mk ((b64Groups bytes).map b64EncGroup).flatten

/-- A JPEG data URL carrying the given payload bytes, as
`chrome.tabs.captureVisibleTab` / `downscaleDataUrl` produce. -/
def mkJpegDataUrl (bytes : List Nat) : String :=
  "data:image/jpeg;base64," ++ base64Encode bytes

theorem b64Char_ne_comma (n : Nat) : b64Char n ≠ ',' := by
  have halph : ∀ c ∈ b64Alphabet, c ≠ ',' := by decide
  unfold b64Char List.getD
  cases h : b64Alphabet.get? n with
  | none => simp [h]
  | some c =>
    have hc := List.get?_mem h
    simp [h]
    exact halph c hc

theorem b64EncGroup_ne_comma (g : List Nat) : ∀ c ∈ b64EncGroup g, c ≠ ',' := by
  rcases g with - | ⟨a, - | ⟨b, - | ⟨c, rest⟩⟩⟩
  · intro c hc; cases hc
  · intro x hx
    simp only [b64EncGroup, List.mem_cons] at hx
    rcases hx with rfl | rfl | rfl | rfl | h
    · exact b64Char_ne_comma _
    · exact b64Char_ne_comma _
    · decide
    · decide
    · cases h
  · intro x hx
    simp only [b64EncGroup, List.mem_cons] at hx
    rcases hx with rfl | rfl | rfl | rfl | h
    · exact b64Char_ne_comma _
    · exact b64Char_ne_comma _
    · exact b64Char_ne_comma _
    · decide
    · cases h
  · cases rest with
    | nil =>
      intro x hx
      simp only [b64EncGroup, List.mem_cons] at hx
      rcases hx with rfl | rfl | rfl | rfl | h
      · exact b64Char_ne_comma _
      · exact b64Char_ne_comma _
      · exact b64Char_ne_comma _
      · exact b64Char_ne_comma _
      · cases h
    | cons d rest' =>
      intro x hx
      simp only [b64EncGroup] at hx
      cases hx

theorem base64Encode_ne_comma (bs : List Nat) :
    ∀ c ∈ (base64Encode bs).toList, c ≠ ',' := by
  intro c hc
  have hc' : c ∈ ((b64Groups bs).map b64EncGroup).flatten := hc
  obtain ⟨l, hl, hcl⟩ := List.mem_flatten.mp hc'
  obtain ⟨g, _, hgl⟩ := List.mem_map.mp hl
  rw [← hgl] at hcl
  exact b64EncGroup_ne_comma g c hcl

theorem base64Encode_length (bs : List Nat) :
    (base64Encode bs).length = 4 * ((bs.length + 2) / 3) := by
  show ((b64Groups bs).map b64EncGroup).flatten.length = _
  induction bs using b64Groups.induct with
  | case1 => simp [b64Groups, b64EncGroup]
  | case2 a => simp [b64Groups, b64EncGroup]
  | case3 a b => simp [b64Groups, b64EncGroup]
  | case4 a b c rest ih =>
    simp only [b64Groups, List.map_cons, List.flatten_cons, List.length_append, ih,
      List.length_cons]
    simp [b64EncGroup]
    omega

theorem findIdx?_append_some {α : Type} (p : α → Bool) (l1 l2 : List α) :
    ∀ i j, l1.findIdx? p i = some j → (l1 ++ l2).findIdx? p i = some j := by
  induction l1 with
  | nil => intro i j h; cases h
  | cons a rest ih =>
    intro i j h
    simp only [List.cons_append, List.findIdx?_cons] at h ⊢
    by_cases hp : p a = true
    · rw [if_pos hp] at h ⊢; exact h
    · rw [if_neg hp] at h ⊢; exact ih _ _ h

theorem estimate_mkJpegDataUrl (bs : List Nat) :
    estimateDataUrlBytes (mkJpegDataUrl bs) = ((base64Encode bs).length * 3 + 3) / 4 := by
  have hdata : ("data:image/jpeg;base64," ++ base64Encode bs).toList =
      "data:image/jpeg;base64,".toList ++ (base64Encode bs).toList :=
    String.data_append _ _
  have hfind : ("data:image/jpeg;base64,".toList ++ (base64Encode bs).toList).findIdx?
      (fun c => c == ',') = some 22 :=
    findIdx?_append_some _ _ _ 0 22 (by decide)
  unfold estimateDataUrlBytes mkJpegDataUrl
  rw [hdata, hfind]
  have hpre : ("data:image/jpeg;base64,".toList).length = 23 := by decide
  show ((("data:image/jpeg;base64,".toList ++ (base64Encode bs).toList).drop (22 + 1)).length
      * 3 + 3) / 4 = _
  rw [show (22 + 1 : Nat) = ("data:image/jpeg;base64,".toList).length from hpre.symm,
    List.drop_left]
  rfl

theorem estimate_mkJpegDataUrl_groups (bs : List Nat) :
    estimateDataUrlBytes (mkJpegDataUrl bs) = 3 * ((bs.length + 2) / 3) := by
  rw [estimate_mkJpegDataUrl, base64Encode_length]
  omega

/-- Concrete one-byte payload (`"X"`, byte 88) whose data URL is
`data:image/jpeg;base64,WA==`. -/
def c5Url : String := mkJpegDataUrl [88]

/-- C5 counterexample: `byteSize` is NOT always the exact serialized size
of the stored image payload.  For a one-byte payload the data URL is
`data:image/jpeg;base64,WA==` and `estimateDataUrlBytes` counts the two
padding characters as data: the stored entry's `byteSize` is 3, not 1.
So `byteSize` is not the exact decoded size for payloads whose length is
not a multiple of 3. -/
theorem byteSize_not_exact_C5 :
    c5Url = "data:image/jpeg;base64,WA==" ∧
    (mapGet (applyProgOps [ProgOp.capture 1 c5Url 5]).entries 1).map ThumbEntry.bytes =
      some 3 ∧
    ([88] : List Nat).length = 1 ∧
    ¬ (∀ bs : List Nat,
        (estimateDataUrlBytes (mkJpegDataUrl bs) : Int) = (bs.length : Int)) := by
  refine ⟨by decide, by decide, rfl, ?_⟩
  intro h
  exact absurd (h [88]) (by decide)

/-- C5 amended: on every state the program's operations can produce,
every entry's `byteSize` equals `saveThumbnail`'s computation from the
stored data URL (0 when image data is absent or empty) — the relation is
maintained on every mutation; that computation is the deterministic exact
function `Math.ceil(3·L/4)` of the base64 payload length `L`, which equals
`3 · ⌈n/3⌉` for an `n`-byte payload — the exact serialized size whenever
`n` is a multiple of 3, and an overcount of the padding otherwise. -/
theorem byteSize_relation_C5_amended :
    (∀ (ops : List ProgOp) (tabId : Nat) (e : ThumbEntry),
      mapGet (applyProgOps ops).entries tabId = some e →
        e.bytes = putBytes e.dataUrl) ∧
    (∀ bs : List Nat,
      estimateDataUrlBytes (mkJpegDataUrl bs) = 3 * ((bs.length + 2) / 3)) ∧
    (∀ bs : List Nat, bs.length % 3 = 0 →
      estimateDataUrlBytes (mkJpegDataUrl bs) = bs.length) := by
  refine ⟨?_, estimate_mkJpegDataUrl_groups, ?_⟩
  · intro ops tabId e hget
    exact ((progOps_good ops).1 (tabId, e) (mapGet_mem hget)).2
  · intro bs h3
    rw [estimate_mkJpegDataUrl_groups]
    omega

theorem byteSize_relation_C5_amended_witness :
    mapGet (applyProgOps [ProgOp.capture 1 (mkJpegDataUrl [65, 66, 67]) 5]).entries 1 =
      some ⟨some (mkJpegDataUrl [65, 66, 67]), false, some 5, 3⟩ ∧
    (⟨some (mkJpegDataUrl [65, 66, 67]), false, some 5, 3⟩ : ThumbEntry).bytes =
      putBytes (some (mkJpegDataUrl [65, 66, 67])) ∧
    ([65, 66, 67] : List Nat).length % 3 = 0 ∧
    estimateDataUrlBytes (mkJpegDataUrl [65, 66, 67]) = ([65, 66, 67] : List Nat).length := by
  refine ⟨by decide, ?_, rfl, ?_⟩
  · exact byteSize_relation_C5_amended.1 [ProgOp.capture 1 (mkJpegDataUrl [65, 66, 67]) 5] 1
      ⟨some (mkJpegDataUrl [65, 66, 67]), false, some 5, 3⟩ (by decide)
  · exact byteSize_relation_C5_amended.2.2 [65, 66, 67] rfl

/-- Whether `pat` occurs at the head of `s`. -/
def matchHere : List Char → List Char → Bool
  | [], _ => true
  | _ :: _, [] => false
  | p :: ps, c :: cs => p == c && matchHere ps cs

/-- Whether `pat` occurs anywhere in `s` (plain substring test). -/
def containsSub (pat : List Char) : List Char → Bool
  | [] => matchHere pat []
  | c :: t => matchHere pat (c :: t) || containsSub pat t

/-- `/permission|visible tab|active tab|allowed|capture/i.test(message)`:
an alternation of literal words, tested case-insensitively — equivalently,
a case-folded substring check for each literal (all literals are ASCII,
so ASCII lower-casing realises the `i` flag). -/
def blockedRegexTest (message : String) : Bool :=
  let l := message.toList.map Char.toLower
  containsSub "permission".toList l || containsSub "visible tab".toList l ||
    containsSub "active tab".toList l || containsSub "allowed".toList l ||
    containsSub "capture".toList l

/-- `isCaptureBlockedError(error)` applied to an error whose `message` is
the given optional string: a missing (`!error` / non-string, no `.message`)
or empty message yields false, otherwise the regex test decides. -/
def isCaptureBlockedError (msg : Option String) : Bool :=
  match msg with
  | none => false
  | some m => if m == "" then false else blockedRegexTest m

/-- `error?.message || 'captureVisibleTab failed'` — the fallback also
fires on an empty (falsy) message. -/
def synthMsg (msg : Option String) : String :=
  match msg with
  | some m => if m == "" then "captureVisibleTab failed" else m
  | none => "captureVisibleTab failed"

/-- What `chrome.tabs.get(tabId)` delivers to `captureThumbnail`: the tab
object (with the properties the function inspects: `isValidTab(tab)`,
`tab.active`, and whether the target window id is finite) or a rejection
carrying an optional error message. -/
inductive TabFetch
  | fetched (valid : Bool) (active : Bool) (windowIdFinite : Bool)
  | failed (msg : Option String)
deriving DecidableEq, Repr

/-- What `chrome.tabs.captureVisibleTab` delivers: a resolved data URL
(possibly empty, i.e. falsy) or a rejection with an optional message. -/
inductive ScreenshotOutcome
  | ok (dataUrl : String)
  | err (msg : Option String)
deriving DecidableEq, Repr

/-- The host-environment behaviour of one capture attempt.  `downscale` is
`some d` when `downscaleDataUrl` resolves with `d`, and `none` when it
rejects (the source then falls back to the original capture).  `now` is
`Date.now()` at write time. -/
structure CaptureEnv where
  tabFetch : TabFetch
  screenshot : ScreenshotOutcome
  downscale : Option String
  now : Int
deriving DecidableEq, Repr

/-- The observable effect of one capture attempt: the cache state
afterwards and the `thumb:update` notifications sent (tab id, reason);
delivery of a notification is best-effort and not modelled. -/
structure CaptureResult where
  state : CacheState
  notes : List (Nat × String)
deriving DecidableEq, Repr

/-- One `captureThumbnail(tabId, windowId, reason)` run: the resulting
cache state plus the `thumb:update` notifications sent (tab id, reason).
The gate's single-flight set is modelled separately (`GateState`); this
function models a run whose entry guard `inflight.has(tabId)` passed, and
assumes the durable write itself does not throw.  The `try` body aborts
silently on an invalid, inactive or window-less tab; a thrown error is
classified by `isCaptureBlockedError`: the blocked branch writes a
`{dataUrl: null, blocked: true, lastUpdated: Date.now()}` entry and
notifies with reason `"blocked"`, the transient branch only logs. -/
def captureThumbnail (env : CaptureEnv) (s : CacheState) (tabId : Nat)
    (reason : String) : CaptureResult :=
  match env.tabFetch with
  | .failed m =>
    if isCaptureBlockedError m then
      ⟨saveThumbnail s tabId none true (some env.now), [(tabId, "blocked")]⟩
    else ⟨s, []⟩
  | .fetched valid active windowIdFinite =>
    if !valid then ⟨s, []⟩
    else if !active then ⟨s, []⟩
    else if !windowIdFinite then ⟨s, []⟩
    else
      match env.screenshot with
      | .err m =>
        if isCaptureBlockedError (some (synthMsg m)) then
          ⟨saveThumbnail s tabId none true (some env.now), [(tabId, "blocked")]⟩
        else ⟨s, []⟩
      | .ok dataUrl =>
        if dataUrl == "" then
          if isCaptureBlockedError (some "captureVisibleTab returned empty dataUrl") then
            ⟨saveThumbnail s tabId none true (some env.now), [(tabId, "blocked")]⟩
          else ⟨s, []⟩
        else
          ⟨saveThumbnail s tabId (some (env.downscale.getD dataUrl)) false (some env.now),
            [(tabId, reason)]⟩

theorem length_mapSet_le {α : Type} (m : List (Nat × α)) (k : Nat) (v : α) :
    (mapSet m k v).length ≤ m.length + 1 := by
  by_cases hk : k ∈ keys m
  · rw [mapSet_of_mem v hk, List.length_map]
    exact Nat.le_succ _
  · rw [mapSet_of_not_mem v hk, List.length_append]
    exact Nat.le_refl _

theorem savePre_blocked_withinBounds {s : CacheState} (tabId : Nat) (now : Int)
    (hlen : s.entries.length < THUMB_MAX_ENTRIES)
    (htb : s.totalBytes ≤ THUMB_MAX_TOTAL_BYTES)
    (hpos : ∀ p ∈ s.entries, 0 ≤ p.2.bytes) :
    withinBounds (savePre s tabId none true (some now)) = true := by
  refine withinBounds_iff.mpr ⟨?_, ?_⟩
  · exact le_trans (length_mapSet_le _ _ _) hlen
  · show (match mapGet s.entries tabId with
      | some e => s.totalBytes - e.bytes
      | none => s.totalBytes) + putBytes none ≤ THUMB_MAX_TOTAL_BYTES
    cases hget : mapGet s.entries tabId with
    | none => simpa [putBytes] using htb
    | some e =>
      have he : 0 ≤ e.bytes := hpos _ (mapGet_mem hget)
      show s.totalBytes - e.bytes + putBytes none ≤ THUMB_MAX_TOTAL_BYTES
      simp only [putBytes]
      omega

/-- C7: a capture attempt for a valid, active tab whose screenshot call
rejects with a message not classified as capture-forbidden writes no
entry: the cache state is unchanged and no `thumb:update` notification is
emitted. -/
theorem transient_failure_C7 (env : CaptureEnv) (s : CacheState) (tabId : Nat)
    (reason : String) (m : String)
    (hfetch : env.tabFetch = .fetched true true true)
    (hshot : env.screenshot = .err (some m))
    (hnotblocked : isCaptureBlockedError (some (synthMsg (some m))) = false) :
    captureThumbnail env s tabId reason = ⟨s, []⟩ := by
  simp [captureThumbnail, hfetch, hshot, hnotblocked]

theorem transient_failure_C7_witness :
    captureThumbnail
        ⟨.fetched true true true, .err (some "network timeout"), none, 7⟩
        emptyCacheState 3 "updated-complete" =
      ⟨emptyCacheState, []⟩ :=
  transient_failure_C7 _ _ _ _ "network timeout" rfl rfl (by decide)

/-- C8: a capture attempt for a valid, active tab whose screenshot call
rejects with a message matching the forbidden-capture pattern writes a
`blocked = true` entry with no image data and the failure timestamp, and
emits one `thumb:update` notification with reason `"blocked"`.  The bound
hypotheses keep the fresh blocked entry from being evicted again, so it is
readable back. -/
theorem blocked_failure_C8 (env : CaptureEnv) (s : CacheState) (tabId : Nat)
    (reason : String) (m : String)
    (hfetch : env.tabFetch = .fetched true true true)
    (hshot : env.screenshot = .err (some m))
    (hblocked : isCaptureBlockedError (some (synthMsg (some m))) = true)
    (hlen : s.entries.length < THUMB_MAX_ENTRIES)
    (htb : s.totalBytes ≤ THUMB_MAX_TOTAL_BYTES)
    (hpos : ∀ p ∈ s.entries, 0 ≤ p.2.bytes) :
    captureThumbnail env s tabId reason =
      ⟨saveThumbnail s tabId none true (some env.now), [(tabId, "blocked")]⟩ ∧
    mapGet (captureThumbnail env s tabId reason).state.entries tabId =
      some ⟨none, true, some env.now, 0⟩ := by
  have hrun : captureThumbnail env s tabId reason =
      ⟨saveThumbnail s tabId none true (some env.now), [(tabId, "blocked")]⟩ := by
    simp [captureThumbnail, hfetch, hshot, hblocked]
  have hsave : saveThumbnail s tabId none true (some env.now) =
      savePre s tabId none true (some env.now) := by
    unfold saveThumbnail
    exact evict_eq_self (savePre_blocked_withinBounds tabId env.now hlen htb hpos)
  refine ⟨hrun, ?_⟩
  rw [hrun]
  show mapGet (saveThumbnail s tabId none true (some env.now)).entries tabId = _
  rw [hsave]
  show mapGet (mapSet s.entries tabId ⟨none, true, some env.now, putBytes none⟩) tabId = _
  rw [mapGet_mapSet_self]
  rfl

theorem blocked_failure_C8_witness :
    captureThumbnail
        ⟨.fetched true true true, .err (some "permission denied"), none, 9⟩
        emptyCacheState 4 "activated" =
      ⟨saveThumbnail emptyCacheState 4 none true (some 9), [(4, "blocked")]⟩ ∧
    mapGet (captureThumbnail
        ⟨.fetched true true true, .err (some "permission denied"), none, 9⟩
        emptyCacheState 4 "activated").state.entries 4 =
      some ⟨none, true, some 9, 0⟩ :=
  blocked_failure_C8 _ _ _ _ "permission denied" rfl rfl (by decide) (by decide)
    (by decide) (by intro p hp; cases hp)

/-- C10: for a valid, active tab, a screenshot call that resolves with an
empty (falsy) data URL, or rejects with an error carrying no message, is
classified capture-forbidden — the synthesized messages
`"captureVisibleTab returned empty dataUrl"` and `"captureVisibleTab failed"`
match the blocked pattern (they contain "capture") — so a
`blocked = true` entry is written and a `thumb:update` notification with
reason `"blocked"` is emitted. -/
theorem empty_capture_blocked_C10 (env : CaptureEnv) (s : CacheState) (tabId : Nat)
    (reason : String)
    (hfetch : env.tabFetch = .fetched true true true)
    (hshot : env.screenshot = .ok "" ∨ env.screenshot = .err none) :
    captureThumbnail env s tabId reason =
      ⟨saveThumbnail s tabId none true (some env.now), [(tabId, "blocked")]⟩ ∧
    isCaptureBlockedError (some "captureVisibleTab returned empty dataUrl") = true ∧
    isCaptureBlockedError (some "captureVisibleTab failed") = true := by
  have hempty : isCaptureBlockedError (some "captureVisibleTab returned empty dataUrl") =
      true := by decide
  have hfail : isCaptureBlockedError (some "captureVisibleTab failed") = true := by decide
  refine ⟨?_, hempty, hfail⟩
  rcases hshot with h | h
  · simp [captureThumbnail, hfetch, h, hempty]
  · simp [captureThumbnail, hfetch, h, synthMsg, hfail]

theorem empty_capture_blocked_C10_witness :
    captureThumbnail ⟨.fetched true true true, .ok "", none, 11⟩ emptyCacheState 6
        "created-active" =
      ⟨saveThumbnail emptyCacheState 6 none true (some 11), [(6, "blocked")]⟩ ∧
    isCaptureBlockedError (some "captureVisibleTab returned empty dataUrl") = true ∧
    isCaptureBlockedError (some "captureVisibleTab failed") = true :=
  empty_capture_blocked_C10 _ _ _ _ rfl (Or.inl rfl)

/-- The Capture Gate's state: the pending debounce timers (tab id ↦ the
parameters the armed timer will pass to the Capturer) and the set of tab
ids with a capture in flight. -/
structure GateState where
  timers : List (Nat × (Int × String))
  inflight : List Nat
deriving DecidableEq, Repr

/-- `scheduleThumbnailCapture(tabId, windowId, reason)`: return unchanged
when a capture for the tab is in flight (the request is dropped); else
clear any pending timer for the tab and arm a new one carrying this
call's `windowId` and `reason`.  (`Number.isFinite(tabId)` always holds
for a `Nat` tab id.) -/
def scheduleThumbnailCapture (g : GateState) (tabId : Nat) (windowId : Int)
    (reason : String) : GateState :=
  if g.inflight.contains tabId then g
  else { g with timers := mapSet g.timers tabId (windowId, reason) }

/-- A debounce timer firing for `tabId`: the timer entry is deleted and
the Capturer is invoked once with the stored parameters (`none` when no
timer is pending, so no invocation). -/
def fireTimer (g : GateState) (tabId : Nat) : GateState × Option (Int × String) :=
  match mapGet g.timers tabId with
  | none => (g, none)
  | some p => ({ g with timers := mapDelete g.timers tabId }, some p)

theorem mapGet_mapDelete_self {α : Type} (m : List (Nat × α)) (k : Nat) :
    mapGet (mapDelete m k) k = none := by
  apply mapGet_eq_none_of_not_mem
  intro hk
  obtain ⟨p, hp, hpk⟩ := mem_keys.mp hk
  exact (mem_mapDelete_iff.mp hp).2 hpk

/-- C9: two `requestCapture` calls for the same tab inside the debounce
window, with no capture in flight, leave exactly one pending timer, which
fires one Capturer invocation carrying the second call's `windowId` and
`reason` (the first call's parameters are discarded), and no further timer
remains afterwards; a request arriving while a capture for that tab is in
flight leaves the gate unchanged (dropped). -/
theorem debounce_single_flight_C9 (g : GateState) (tabId : Nat)
    (w1 w2 w3 : Int) (r1 r2 r3 : String)
    (hnd : (keys g.timers).Nodup)
    (hnin : g.inflight.contains tabId = false) :
    ((keys (scheduleThumbnailCapture (scheduleThumbnailCapture g tabId w1 r1)
        tabId w2 r2).timers).count tabId = 1 ∧
      (fireTimer (scheduleThumbnailCapture (scheduleThumbnailCapture g tabId w1 r1)
        tabId w2 r2) tabId).2 = some (w2, r2) ∧
      (fireTimer (fireTimer (scheduleThumbnailCapture (scheduleThumbnailCapture g tabId w1 r1)
        tabId w2 r2) tabId).1 tabId).2 = none) ∧
    (∀ g' : GateState, g'.inflight.contains tabId = true →
      scheduleThumbnailCapture g' tabId w3 r3 = g') := by
  have hs1 : scheduleThumbnailCapture g tabId w1 r1 =
      { g with timers := mapSet g.timers tabId (w1, r1) } := by
    unfold scheduleThumbnailCapture
    rw [if_neg (by simpa using hnin)]
  have hs2 : scheduleThumbnailCapture (scheduleThumbnailCapture g tabId w1 r1) tabId w2 r2 =
      { g with timers := mapSet (mapSet g.timers tabId (w1, r1)) tabId (w2, r2) } := by
    rw [hs1]
    unfold scheduleThumbnailCapture
    rw [if_neg (by simpa using hnin)]
  have hget2 : mapGet (mapSet (mapSet g.timers tabId (w1, r1)) tabId (w2, r2)) tabId =
      some (w2, r2) := mapGet_mapSet_self _ _
  have hnd2 : (keys (mapSet (mapSet g.timers tabId (w1, r1)) tabId (w2, r2))).Nodup :=
    keys_mapSet_nodup _ (keys_mapSet_nodup _ hnd)
  refine ⟨⟨?_, ?_, ?_⟩, ?_⟩
  · rw [hs2]
    exact List.count_eq_one_of_mem hnd2 (mem_keys_of_mapGet hget2)
  · rw [hs2]
    simp [fireTimer, hget2]
  · rw [hs2]
    simp [fireTimer, hget2, mapGet_mapDelete_self]
  · intro g' hin
    have hmem : tabId ∈ g'.inflight := by simpa using hin
    simp [scheduleThumbnailCapture, hmem]

theorem debounce_single_flight_C9_witness :
    ((keys (scheduleThumbnailCapture
        (scheduleThumbnailCapture ⟨[], []⟩ 1 10 "activated") 1 11 "updated-complete").timers).count
        1 = 1 ∧
      (fireTimer (scheduleThumbnailCapture
        (scheduleThumbnailCapture ⟨[], []⟩ 1 10 "activated") 1 11 "updated-complete") 1).2 =
        some (11, "updated-complete") ∧
      (fireTimer (fireTimer (scheduleThumbnailCapture
        (scheduleThumbnailCapture ⟨[], []⟩ 1 10 "activated") 1 11 "updated-complete") 1).1 1).2 =
        none) ∧
    (∀ g' : GateState, g'.inflight.contains 1 = true →
      scheduleThumbnailCapture g' 1 12 "created-active" = g') :=
  debounce_single_flight_C9 ⟨[], []⟩ 1 10 11 12 "activated" "updated-complete"
    "created-active" (by decide) rfl

end GraphTabs
